import Mathlib

/-!
Verification of the websauna transaction-retry controller
(`websauna/system/model/retry.py`) and the nested mutable JSON tracker
(`websauna/system/model/json.py`) through a shallow embedding in Lean.

Conventions of the embedding:

* Python exceptions become explicit result constructors.
* The transaction manager's context-local current-transaction slot
  (`manager._txn`) is modelled by its truthiness, a `Bool`.
* `getattr(manager, "retry_attempt_count", None)` is modelled as an
  `Option Nat`: retry attempt counts are non-negative configuration
  values; the Python truthiness test `not retry_attempt_count`
  corresponds to the value being `none` or `some 0`.
* The sequence of transactions produced by repeated `manager.begin()`
  calls is modelled by a function `txns : Nat -> Txn` giving the
  transaction object of each attempt, and the behaviour of the unit of
  work together with `txn.commit()` on each attempt by a function
  `outcomes : Nat -> AttemptOutcome` (a commit that raises is a `fail`
  outcome, exactly as an exception from the unit of work is).
-/

/-- A data/resource manager participating in a transaction:
`getattr(dm, 'should_retry', None)` either yields a predicate on
errors or is absent. -/
structure ResourceManager (ε : Type) where
  should_retry : Option (ε → Bool)

/-- A transaction as seen by `is_retryable`: it exposes its
participating resource managers (`txn._resources`). -/
structure Txn (ε : Type) where
  _resources : List (ResourceManager ε)

/-- The transaction manager state that `decorated_func` inspects:
the truthiness of the context-local `manager._txn` slot and the
(possibly absent) configured `retry_attempt_count`. -/
structure Manager where
  _txn : Bool
  retry_attempt_count : Option Nat

/-- The observable behaviour of one attempt: either the unit of work
returns a value and `txn.commit()` succeeds, or the unit of work or the
commit raises an exception. -/
inductive AttemptOutcome (α ε : Type) where
  | ok (v : α)
  | fail (e : ε)
deriving DecidableEq

/-- The possible results of a call to the retry-wrapped function.
`assertionFailed` is the `assert manager` failure; the other error
constructors correspond to the exception classes of `retry.py`.
`cannotRetryAnymore` carries the chained `__cause__` (`from latest_exc`). -/
inductive RunResult (α ε : Type) where
  | value (v : α)
  | assertionFailed
  | transactionAlreadyInProcess
  | notRetryable
  | raised (e : ε)
  | cannotRetryAnymore (cause : Option ε)
deriving DecidableEq

/-- `is_retryable(txn, error)` from `retry.py`: asks every resource
manager of the transaction whether it classifies the error as
retryable; absence of `should_retry` means "does not vote retryable".
(The Python function returns `True` or falls through to `None`; only its
truthiness is ever used, so the embedding returns `Bool`.) -/
def is_retryable {ε : Type} (txn : Txn ε) (error : ε) : Bool :=
  txn._resources.any fun dm =>
    match dm.should_retry with
    | some p => p error
    | none => false

/-- The attempt loop of `decorated_func` (`for num in range(retry_attempt_count)`),
parameterised by the remaining number of attempts, the current loop index
`num` and the accumulated `latest_exc`.  Returns the run result together
with the number of `manager.begin()` calls performed by the loop and the
last value written to `manager.latest_retry_count` by the loop (`none`
when the loop performed no `begin`). -/
def runAttempts {α ε : Type} (txns : Nat → Txn ε) (outcomes : Nat → AttemptOutcome α ε) :
    Nat → Nat → Option ε → RunResult α ε × Nat × Option Nat
  | 0, _, latest_exc => (.cannotRetryAnymore latest_exc, 0, none)
  | remaining + 1, num, _latest_exc =>
    match outcomes num with
    | .ok v => (.value v, 1, some num)
    | .fail e =>
      if is_retryable (txns num) e then
        match runAttempts txns outcomes remaining (num + 1) (some e) with
        | (r, b, latest) => (r, b + 1, some (latest.getD num))
      else
        (.raised e, 1, some num)

/-- `decorated_func` from `retry.py`.  The argument `manager` is the
transaction manager resolved from `tm`/`get_tm` (`none` models a falsy
manager, on which `assert manager` fails).  The result triple is
(result, number of `begin()` calls, final `manager.latest_retry_count`
value, `none` when it was never written). -/
def decorated_func {α ε : Type} (manager : Option Manager) (txns : Nat → Txn ε)
    (outcomes : Nat → AttemptOutcome α ε) : RunResult α ε × Nat × Option Nat :=
  match manager with
  | none => (.assertionFailed, 0, none)
  | some m =>
    if m._txn then
      (.transactionAlreadyInProcess, 0, none)
    else
      match m.retry_attempt_count with
      | none => (.notRetryable, 0, none)
      | some 0 => (.notRetryable, 0, none)
      | some (c + 1) => runAttempts txns outcomes (c + 1) 0 none

theorem runAttempts_exhaust {α ε : Type} (txns : Nat → Txn ε) (errs : Nat → ε) :
    ∀ (r num : Nat) (le : Option ε),
    (∀ i, num ≤ i → i < num + (r + 1) → is_retryable (txns i) (errs i) = true) →
    runAttempts txns (fun i => (.fail (errs i) : AttemptOutcome α ε)) (r + 1) num le =
      (.cannotRetryAnymore (some (errs (num + r))), r + 1, some (num + r)) := by
  intro r
  induction r with
  | zero =>
    intro num le hret
    have h0 : is_retryable (txns num) (errs num) = true := by
      exact hret num (Nat.le_refl num) (by omega)
    simp only [runAttempts, h0, if_true]
    simp
  | succ k ih =>
    intro num le hret
    have h0 : is_retryable (txns num) (errs num) = true := by
      exact hret num (Nat.le_refl num) (by omega)
    have hrec := ih (num + 1) (some (errs num)) (by
      intro i hi1 hi2
      exact hret i (by omega) (by omega))
    simp only [runAttempts, h0, if_true] at hrec ⊢
    rw [hrec]
    have hnum : num + 1 + k = num + (k + 1) := by omega
    rw [hnum]
    simp

/-- C1: for every configured retry bound N ≥ 1, if on every attempt the
unit of work (or the commit) raises an error that at least one resource
manager of that attempt's transaction classifies as retryable, then the
retry wrapper performs exactly N begin/attempt cycles and then fails
with `CannotRetryAnymore` (OutOfRetries) whose cause is the last
observed exception. -/
theorem retry_exhausts_all_attempts (α ε : Type) (N : Nat) (hN : 1 ≤ N)
    (txns : Nat → Txn ε) (errs : Nat → ε)
    (hret : ∀ i, i < N → is_retryable (txns i) (errs i) = true) :
    decorated_func (some ⟨false, some N⟩) txns
        (fun i => (.fail (errs i) : AttemptOutcome α ε)) =
      (.cannotRetryAnymore (some (errs (N - 1))), N, some (N - 1)) := by
  obtain ⟨c, rfl⟩ : ∃ c, N = c + 1 := ⟨N - 1, by omega⟩
  have h := runAttempts_exhaust (α := α) txns errs c 0 none (by
    intro i _ hi2
    exact hret i (by omega))
  simp only [decorated_func, Bool.false_eq_true, if_false, h]
  simp

theorem retry_exhausts_all_attempts_witness :
    decorated_func (some ⟨false, some 2⟩)
        (fun _ => (⟨[⟨some fun _ => true⟩]⟩ : Txn Nat))
        (fun i => (.fail ((fun _ => 7) i) : AttemptOutcome Nat Nat)) =
      (.cannotRetryAnymore (some 7), 2, some 1) := by
  exact retry_exhausts_all_attempts Nat Nat 2 (by omega)
    (fun _ => ⟨[⟨some fun _ => true⟩]⟩) (fun _ => 7) (fun i _ => rfl)

theorem runAttempts_returns {α ε : Type} (txns : Nat → Txn ε)
    (outcomes : Nat → AttemptOutcome α ε) (v : α) :
    ∀ (k remaining num : Nat) (le : Option ε),
    k < remaining →
    (∀ j, j < k → ∃ e, outcomes (num + j) = .fail e ∧
        is_retryable (txns (num + j)) e = true) →
    outcomes (num + k) = .ok v →
    runAttempts txns outcomes remaining num le = (.value v, k + 1, some (num + k)) := by
  intro k
  induction k with
  | zero =>
    intro remaining num le hk _ hok
    obtain ⟨r, rfl⟩ : ∃ r, remaining = r + 1 := ⟨remaining - 1, by omega⟩
    rw [Nat.add_zero] at hok
    simp only [runAttempts, hok]
    simp
  | succ k ih =>
    intro remaining num le hk hfail hok
    obtain ⟨r, rfl⟩ : ∃ r, remaining = r + 1 := ⟨remaining - 1, by omega⟩
    obtain ⟨e0, he0, hr0⟩ := hfail 0 (by omega)
    rw [Nat.add_zero] at he0 hr0
    have hrec := ih r (num + 1) (some e0) (by omega)
      (by
        intro j hj
        obtain ⟨e, he, hre⟩ := hfail (j + 1) (by omega)
        refine ⟨e, ?_, ?_⟩
        · rw [show num + 1 + j = num + (j + 1) by omega]; exact he
        · rw [show num + 1 + j = num + (j + 1) by omega]; exact hre)
      (by rw [show num + 1 + k = num + (k + 1) by omega]; exact hok)
    simp only [runAttempts, he0, hr0, if_true]
    rw [hrec]
    have hnum : num + 1 + k = num + (k + 1) := by omega
    rw [hnum]
    simp

/-- C2: for every unit of work that raises a retryable error on
attempts 1..K-1 and succeeds on attempt K ≤ N, the retry wrapper
performs exactly K begin/commit attempts, returns the unit of work's
result from attempt K, and leaves `manager.latest_retry_count` equal to
K - 1, the zero-based index of the last attempt. -/
theorem retry_returns_on_success (α ε : Type) (N K : Nat) (hK1 : 1 ≤ K) (hKN : K ≤ N)
    (txns : Nat → Txn ε) (outcomes : Nat → AttemptOutcome α ε) (v : α)
    (hfail : ∀ j, j < K - 1 → ∃ e, outcomes j = .fail e ∧
        is_retryable (txns j) e = true)
    (hok : outcomes (K - 1) = .ok v) :
    decorated_func (some ⟨false, some N⟩) txns outcomes = (.value v, K, some (K - 1)) := by
  obtain ⟨c, rfl⟩ : ∃ c, N = c + 1 := ⟨N - 1, by omega⟩
  have h := runAttempts_returns txns outcomes v (K - 1) (c + 1) 0 none (by omega)
    (by
      intro j hj
      obtain ⟨e, he, hre⟩ := hfail j hj
      exact ⟨e, by rw [Nat.zero_add]; exact he, by rw [Nat.zero_add]; exact hre⟩)
    (by rw [Nat.zero_add]; exact hok)
  simp only [decorated_func, Bool.false_eq_true, if_false, h]
  rw [Nat.zero_add, show K - 1 + 1 = K by omega]

theorem retry_returns_on_success_witness :
    decorated_func (some ⟨false, some 3⟩)
        (fun _ => (⟨[⟨some fun _ => true⟩]⟩ : Txn Nat))
        (fun i => if i = 0 then (.fail 5 : AttemptOutcome Nat Nat) else .ok 42) =
      (.value 42, 2, some 1) := by
  exact retry_returns_on_success Nat Nat 3 2 (by omega) (by omega)
    (fun _ => ⟨[⟨some fun _ => true⟩]⟩)
    (fun i => if i = 0 then .fail 5 else .ok 42) 42
    (by
      intro j hj
      have hj0 : j = 0 := by omega
      subst hj0
      exact ⟨5, rfl, rfl⟩)
    rfl

theorem runAttempts_raises {α ε : Type} (txns : Nat → Txn ε)
    (outcomes : Nat → AttemptOutcome α ε) (e : ε) :
    ∀ (k remaining num : Nat) (le : Option ε),
    k < remaining →
    (∀ j, j < k → ∃ e', outcomes (num + j) = .fail e' ∧
        is_retryable (txns (num + j)) e' = true) →
    outcomes (num + k) = .fail e →
    is_retryable (txns (num + k)) e = false →
    runAttempts txns outcomes remaining num le = (.raised e, k + 1, some (num + k)) := by
  intro k
  induction k with
  | zero =>
    intro remaining num le hk _ he hnr
    obtain ⟨r, rfl⟩ : ∃ r, remaining = r + 1 := ⟨remaining - 1, by omega⟩
    rw [Nat.add_zero] at he hnr
    simp only [runAttempts, he, hnr, Bool.false_eq_true, if_false]
    simp
  | succ k ih =>
    intro remaining num le hk hfail he hnr
    obtain ⟨r, rfl⟩ : ∃ r, remaining = r + 1 := ⟨remaining - 1, by omega⟩
    obtain ⟨e0, he0, hr0⟩ := hfail 0 (by omega)
    rw [Nat.add_zero] at he0 hr0
    have hrec := ih r (num + 1) (some e0) (by omega)
      (by
        intro j hj
        obtain ⟨e', he', hre⟩ := hfail (j + 1) (by omega)
        refine ⟨e', ?_, ?_⟩
        · rw [show num + 1 + j = num + (j + 1) by omega]; exact he'
        · rw [show num + 1 + j = num + (j + 1) by omega]; exact hre)
      (by rw [show num + 1 + k = num + (k + 1) by omega]; exact he)
      (by rw [show num + 1 + k = num + (k + 1) by omega]; exact hnr)
    simp only [runAttempts, he0, hr0, if_true]
    rw [hrec]
    have hnum : num + 1 + k = num + (k + 1) := by omega
    rw [hnum]
    simp

/-- C3: if during some attempt (zero-based index J, reached after J
retryable failures) the unit of work or the commit raises an exception
that no resource manager of the current transaction classifies as
retryable, the retry wrapper propagates that exact exception
immediately: exactly J + 1 `begin()` calls were performed and no
further attempt is begun, and the propagated exception is the very
exception that was raised. -/
theorem retry_propagates_nonretryable (α ε : Type) (N J : Nat) (hJ : J < N)
    (txns : Nat → Txn ε) (outcomes : Nat → AttemptOutcome α ε) (e : ε)
    (hfail : ∀ j, j < J → ∃ e', outcomes j = .fail e' ∧
        is_retryable (txns j) e' = true)
    (he : outcomes J = .fail e)
    (hnr : is_retryable (txns J) e = false) :
    decorated_func (some ⟨false, some N⟩) txns outcomes = (.raised e, J + 1, some J) := by
  obtain ⟨c, rfl⟩ : ∃ c, N = c + 1 := ⟨N - 1, by omega⟩
  have h := runAttempts_raises txns outcomes e J (c + 1) 0 none hJ
    (by
      intro j hj
      obtain ⟨e', he', hre⟩ := hfail j hj
      exact ⟨e', by rw [Nat.zero_add]; exact he', by rw [Nat.zero_add]; exact hre⟩)
    (by rw [Nat.zero_add]; exact he)
    (by rw [Nat.zero_add]; exact hnr)
  simp only [decorated_func, Bool.false_eq_true, if_false, h]
  rw [Nat.zero_add]

theorem retry_propagates_nonretryable_witness :
    decorated_func (some ⟨false, some 3⟩)
        (fun _ => (⟨[⟨some fun e => e == 5⟩]⟩ : Txn Nat))
        (fun i => if i = 0 then (.fail 5 : AttemptOutcome Nat Nat) else .fail 9) =
      (.raised 9, 2, some 1) := by
  exact retry_propagates_nonretryable Nat Nat 3 1 (by omega)
    (fun _ => ⟨[⟨some fun e => e == 5⟩]⟩)
    (fun i => if i = 0 then .fail 5 else .fail 9) 9
    (by
      intro j hj
      have hj0 : j = 0 := by omega
      subst hj0
      exact ⟨5, rfl, rfl⟩)
    rfl rfl

/-- C4: invoking the retry-wrapped function while a transaction is
already active in the calling execution context (the manager's
context-local `_txn` slot is truthy) always fails with
`TransactionAlreadyInProcess` (AlreadyInTransaction), regardless of how
(or whether) the retry attempt count is configured, and before any
`begin()` call: the `ensure_transactionless` check precedes the
retry-count validation. -/
theorem retry_rejects_active_transaction (α ε : Type) (rac : Option Nat)
    (txns : Nat → Txn ε) (outcomes : Nat → AttemptOutcome α ε) :
    decorated_func (some ⟨true, rac⟩) txns outcomes =
      (.transactionAlreadyInProcess, 0, none) := by
  rfl

/-- C5 counterexample: the claim states that a null resolved
transaction manager makes the wrapper fail with `NotRetryable`
(NotConfigured).  In the code a null manager trips `assert manager`
instead, producing an assertion failure; and a manager that lacks a
retry count but still has an active transaction fails with
`TransactionAlreadyInProcess`, because `ensure_transactionless` runs
before the retry-count check.  Both branches are exhibited at concrete
inputs, and neither result is `notRetryable`. -/
theorem retry_notconfigured_counterexample :
    (decorated_func none (fun _ => (⟨[]⟩ : Txn Nat))
        (fun _ => (.ok 0 : AttemptOutcome Nat Nat)) =
      (.assertionFailed, 0, none))
    ∧ (decorated_func (some ⟨true, none⟩) (fun _ => (⟨[]⟩ : Txn Nat))
        (fun _ => (.ok 0 : AttemptOutcome Nat Nat)) =
      (.transactionAlreadyInProcess, 0, none))
    ∧ ((.assertionFailed : RunResult Nat Nat) ≠ .notRetryable)
    ∧ ((.transactionAlreadyInProcess : RunResult Nat Nat) ≠ .notRetryable) := by
  refine ⟨rfl, rfl, ?_, ?_⟩ <;> intro h <;> cases h

/-- C5 (amended): if the resolved transaction manager is null, the call
fails the `assert manager` assertion (an assertion error, not
`NotRetryable`); if the manager is non-null, no transaction is already
active in the calling context, and its `retry_attempt_count` is missing
or zero (falsy), the call fails with `NotRetryable`.  In all of these
cases no transaction is ever begun. -/
theorem retry_notconfigured_amended (α ε : Type)
    (txns : Nat → Txn ε) (outcomes : Nat → AttemptOutcome α ε) :
    (decorated_func none txns outcomes = (.assertionFailed, 0, none))
    ∧ (∀ rac : Option Nat, rac = none ∨ rac = some 0 →
        decorated_func (some ⟨false, rac⟩) txns outcomes =
          (.notRetryable, 0, none)) := by
  constructor
  · rfl
  · intro rac hrac
    rcases hrac with h | h <;> subst h <;> rfl

theorem retry_notconfigured_amended_witness :
    (decorated_func none (fun _ => (⟨[]⟩ : Txn Nat))
        (fun _ => (.ok 0 : AttemptOutcome Nat Nat)) =
      (.assertionFailed, 0, none))
    ∧ (decorated_func (some ⟨false, none⟩) (fun _ => (⟨[]⟩ : Txn Nat))
        (fun _ => (.ok 0 : AttemptOutcome Nat Nat)) =
      (.notRetryable, 0, none)) := by
  refine ⟨?_, ?_⟩
  · exact (retry_notconfigured_amended Nat Nat (fun _ => ⟨[]⟩) (fun _ => .ok 0)).1
  · exact (retry_notconfigured_amended Nat Nat (fun _ => ⟨[]⟩) (fun _ => .ok 0)).2
      none (Or.inl rfl)

/-!
Nested mutable JSON tracker (`websauna/system/model/json.py`).

The embedding uses an explicit heap of container cells so that Python's
object aliasing is representable: a `RawVal.ref a` is a reference to the
container object stored at address `a` (index into the heap list), and
`RawVal.prim` is any non-container value.  A `Wrapper` models a
`NestedMutationDict` / `NestedMutationList` instance: the address of the
underlying `_d` object plus the `__parent__` chain (`Wrapper.root` is a
wrapper whose `__parent__` is `None`, i.e. one bound directly to a
record column via `_parents`).  The SQLAlchemy `Mutable.changed()` base
behaviour — flagging the owning record attribute as modified — is
modelled as incrementing the `dirtyEvents` counter of the tracking
state.
-/

/-- Non-container JSON values (numbers, strings, booleans, None). -/
inductive Prim where
  | null
  | int (n : Int)
  | str (s : String)
  | bool (b : Bool)
deriving DecidableEq

/-- A raw Python value stored inside a container: a primitive, or a
reference to a container object on the heap. -/
inductive RawVal where
  | prim (p : Prim)
  | ref (a : Nat)
deriving DecidableEq

/-- A container object: a plain `dict` (insertion-ordered association
list with unique keys) or a plain `list`. -/
inductive Cell where
  | dcell (entries : List (String × RawVal))
  | lcell (items : List RawVal)
deriving DecidableEq

/-- The object heap; addresses are list indices. -/
abbrev Heap := List Cell

def heapGet : Heap → Nat → Option Cell
  | [], _ => none
  | c :: _, 0 => some c
  | _ :: rest, i + 1 => heapGet rest i

/-- In-place replacement of the container object at an address
(a Python container method mutating `self`). -/
def heapSet : Heap → Nat → Cell → Heap
  | [], _, _ => []
  | _ :: rest, 0, c => c :: rest
  | x :: rest, i + 1, c => x :: heapSet rest i c

def dictGetOpt : List (String × RawVal) → String → Option RawVal
  | [], _ => none
  | kv :: rest, k => if kv.1 = k then some kv.2 else dictGetOpt rest k

/-- `dict.get(key)`: the stored value, or `None` when absent. -/
def dictGet (es : List (String × RawVal)) (k : String) : RawVal :=
  match dictGetOpt es k with
  | some v => v
  | none => .prim .null

/-- `dict.__setitem__`: update in place when the key exists (keeping
insertion order), else append. -/
def dictSet : List (String × RawVal) → String → RawVal → List (String × RawVal)
  | [], k, v => [(k, v)]
  | kv :: rest, k, v => if kv.1 = k then (k, v) :: rest else kv :: dictSet rest k v

def dictDel : List (String × RawVal) → String → List (String × RawVal)
  | [], _ => []
  | kv :: rest, k => if kv.1 = k then rest else kv :: dictDel rest k

/-- `dict.update`: set every given pair in order. -/
def dictSetAll (es kvs : List (String × RawVal)) : List (String × RawVal) :=
  kvs.foldl (fun acc kv => dictSet acc kv.1 kv.2) es

def listGet : List RawVal → Nat → Option RawVal
  | [], _ => none
  | x :: _, 0 => some x
  | _ :: xs, i + 1 => listGet xs i

def listSet : List RawVal → Nat → RawVal → List RawVal
  | [], _, _ => []
  | _ :: xs, 0, v => v :: xs
  | x :: xs, i + 1, v => x :: listSet xs i v

def listDel : List RawVal → Nat → List RawVal
  | [], _ => []
  | _ :: xs, 0 => xs
  | x :: xs, i + 1 => x :: listDel xs i

/-- `list.insert`: clamps the index to the length, as Python does. -/
def listIns : List RawVal → Nat → RawVal → List RawVal
  | xs, 0, v => v :: xs
  | [], _ + 1, v => [v]
  | x :: xs, i + 1, v => x :: listIns xs i v

/-- `list.pop()`: remove and return the last element. -/
def listPopLast : List RawVal → Option (RawVal × List RawVal)
  | [] => none
  | [x] => some (x, [])
  | x :: y :: xs => (listPopLast (y :: xs)).map fun p => (p.1, x :: p.2)

/-- `list.remove(v)`: drop the first matching element, error if absent. -/
def listRemove (v : RawVal) : List RawVal → Option (List RawVal)
  | [] => none
  | x :: xs => if x = v then some xs else (listRemove v xs).map (x :: ·)

/-- A `NestedMutationDict` / `NestedMutationList` wrapper instance:
the address of its underlying `_d` container and its `__parent__`
chain.  `root` is a wrapper with `__parent__ = None` (bound directly to
a record attribute); `child` is a wrapper produced by wrap-on-read,
whose parent is another wrapper. -/
inductive Wrapper where
  | root (addr : Nat)
  | child (addr : Nat) (parent : Wrapper)
deriving DecidableEq

def Wrapper.addr : Wrapper → Nat
  | .root a => a
  | .child a _ => a

/-- The tracking state: the object heap plus the number of times the
base `Mutable.changed()` dirty-marking fired on the owning record
attribute. -/
structure TrackState where
  heap : Heap
  dirtyEvents : Nat
deriving DecidableEq

/-- `NestedMixin.changed`: forward the changed event to `__parent__`
when there is one, else fall through to the `Mutable` base class, which
flags the owning record attribute as modified (modelled as incrementing
`dirtyEvents`).  The source's `if False and ...` warning branch is dead
code and has no effect. -/
def Wrapper.changed : Wrapper → TrackState → TrackState
  | .root _, st => ⟨st.heap, st.dirtyEvents + 1⟩
  | .child _ p, st => Wrapper.changed p st

def all2 (f : RawVal → RawVal → Bool) : List RawVal → List RawVal → Bool
  | [], [] => true
  | x :: xs, y :: ys => f x y && all2 f xs ys
  | _, _ => false

/-- Python structural equality (`==`) between raw values, with a fuel
bound on the dereferencing depth.  Dicts compare as finite maps
(same size and each key maps to an equal value), lists compare
pointwise. -/
def pyEqVal : Nat → Heap → RawVal → RawVal → Bool
  | _, _, .prim p, .prim q => decide (p = q)
  | fuel + 1, h, .ref a, .ref b =>
    (match heapGet h a, heapGet h b with
     | some (.dcell es), some (.dcell fs) =>
       decide (es.length = fs.length) &&
       es.all fun kv =>
         match dictGetOpt fs kv.1 with
         | some v' => pyEqVal fuel h kv.2 v'
         | none => false
     | some (.lcell xs), some (.lcell ys) =>
       decide (xs.length = ys.length) && all2 (pyEqVal fuel h) xs ys
     | _, _ => false)
  | _, _, _, _ => false

/-- The wrapped container methods installed by the
`for wrapper_class in (MutationDict, MutationList)` loop of `json.py`
(plus `__eq__`/`__repr__` from `NestedMixin`).  Only methods that exist
on the wrapped type are installed; calling a dict method on a list
wrapper (or vice versa) is an attribute error, modelled as `none`.
`setdefault` and the Python-2-only slice methods are not modelled. -/
inductive Op where
  | dget (k : String)
  | dkeys
  | dcontains (k : String)
  | olen
  | oeq (fuel : Nat) (v : RawVal)
  | orepr
  | dsetitem (k : String) (v : RawVal)
  | ddelitem (k : String)
  | dpop (k : String)
  | dupdate (kvs : List (String × RawVal))
  | oclear
  | lsetitem (i : Nat) (v : RawVal)
  | ldelitem (i : Nat)
  | lappend (v : RawVal)
  | lextend (vs : List RawVal)
  | linsert (i : Nat) (v : RawVal)
  | lpop
  | lremove (v : RawVal)
deriving DecidableEq

inductive OpResult where
  | unit
  | raw (v : RawVal)
  | nat (n : Nat)
  | bool (b : Bool)
  | keys (ks : List String)
  | cellv (c : Cell)
deriving DecidableEq

/-- The `mutates` column of the method table in `json.py`: which
wrapped methods signal `changed()` after delegating to the raw
container. -/
def Op.mutates : Op → Bool
  | .dget _ => false
  | .dkeys => false
  | .dcontains _ => false
  | .olen => false
  | .oeq _ _ => false
  | .orepr => false
  | .dsetitem _ _ => true
  | .ddelitem _ => true
  | .dpop _ => true
  | .dupdate _ => true
  | .oclear => true
  | .lsetitem _ _ => true
  | .ldelitem _ => true
  | .lappend _ => true
  | .lextend _ => true
  | .linsert _ _ => true
  | .lpop => true
  | .lremove _ => true

/-- The underlying raw-container method call
(`method = getattr(self._d, methodname); value = method(*args)`),
acting on the cell `c` stored at address `a`.  Returns the method's
result and the replacement cell when the method mutated the container
in place (`none` when it is a read). -/
def runMethod (h : Heap) (a : Nat) (c : Cell) (op : Op) : Option (OpResult × Option Cell) :=
  match c, op with
  | .dcell es, .dget k => some (.raw (dictGet es k), none)
  | .dcell es, .dkeys => some (.keys (es.map Prod.fst), none)
  | .dcell es, .dcontains k => some (.bool (decide (k ∈ es.map Prod.fst)), none)
  | .dcell es, .olen => some (.nat es.length, none)
  | .lcell xs, .olen => some (.nat xs.length, none)
  | _, .oeq fuel v => some (.bool (pyEqVal fuel h (.ref a) v), none)
  | _, .orepr => some (.cellv c, none)
  | .dcell es, .dsetitem k v => some (.unit, some (.dcell (dictSet es k v)))
  | .dcell es, .ddelitem k =>
    (match dictGetOpt es k with
     | some _ => some (.unit, some (.dcell (dictDel es k)))
     | none => none)
  | .dcell es, .dpop k =>
    (match dictGetOpt es k with
     | some v => some (.raw v, some (.dcell (dictDel es k)))
     | none => none)
  | .dcell es, .dupdate kvs => some (.unit, some (.dcell (dictSetAll es kvs)))
  | .dcell _, .oclear => some (.unit, some (.dcell []))
  | .lcell _, .oclear => some (.unit, some (.lcell []))
  | .lcell xs, .lsetitem i v =>
    if i < xs.length then some (.unit, some (.lcell (listSet xs i v))) else none
  | .lcell xs, .ldelitem i =>
    if i < xs.length then some (.unit, some (.lcell (listDel xs i))) else none
  | .lcell xs, .lappend v => some (.unit, some (.lcell (xs ++ [v])))
  | .lcell xs, .lextend vs => some (.unit, some (.lcell (xs ++ vs)))
  | .lcell xs, .linsert i v => some (.unit, some (.lcell (listIns xs i v)))
  | .lcell xs, .lpop =>
    (match listPopLast xs with
     | some p => some (.raw p.1, some (.lcell p.2))
     | none => none)
  | .lcell xs, .lremove v =>
    (match listRemove v xs with
     | some ys => some (.unit, some (.lcell ys))
     | none => none)
  | _, _ => none

/-- Run a raw-container method against the heap: fetch the object at
`a`, run the method, and write the replacement cell back in place when
the method mutated the container. -/
def runRawOp (h : Heap) (a : Nat) (op : Op) : Option (OpResult × Heap) :=
  (heapGet h a).bind fun c =>
    (runMethod h a c op).map fun rw0 =>
      match rw0.2 with
      | none => (rw0.1, h)
      | some c' => (rw0.1, heapSet h a c')

/-- `_make_mutable_method_wrapper`: delegate to the raw container
method, then signal `changed()` exactly when the method table marks the
method as mutating.  (On an exception from the underlying method,
`changed()` is not reached.) -/
def callOp (st : TrackState) (w : Wrapper) (op : Op) : Option (OpResult × TrackState) :=
  (runRawOp st.heap w.addr op).map fun rh =>
    (rh.1, if op.mutates then Wrapper.changed w ⟨rh.2, st.dirtyEvents⟩
           else ⟨rh.2, st.dirtyEvents⟩)

/-- Calling a container method directly on an unwrapped plain dict or
list (for example one obtained through the wrapper's `get`): the raw
method runs with no `changed()` hook at all. -/
def mutateRaw (st : TrackState) (a : Nat) (op : Op) : Option (OpResult × TrackState) :=
  (runRawOp st.heap a op).map fun rh => (rh.1, ⟨rh.2, st.dirtyEvents⟩)

/-- The result of an indexed read through `NestedMixin.__getitem__`:
either a non-container value passed through, or a freshly created
wrapper. -/
inductive GetResult where
  | val (v : RawVal)
  | wrapped (w : Wrapper)
deriving DecidableEq

/-- `NestedMixin.try_wrap`: wrap a read container value in a nested
wrapper whose `__parent__` is the reading wrapper; pass anything else
through unchanged. -/
def try_wrap (w : Wrapper) (v : RawVal) : GetResult :=
  match v with
  | .ref a => .wrapped (.child a w)
  | .prim p => .val (.prim p)

/-- A key for indexed reads: a dict key or a list index. -/
inductive PathKey where
  | k (s : String)
  | i (n : Nat)
deriving DecidableEq

/-- `NestedMixin.__getitem__`: read the raw value from `self._d` and
`try_wrap` it.  A read, so no `changed()` is signalled. -/
def nestedGetitem (h : Heap) (w : Wrapper) (key : PathKey) : Option GetResult :=
  match heapGet h w.addr, key with
  | some (.dcell es), .k s => (dictGetOpt es s).map (try_wrap w)
  | some (.lcell xs), .i n => (listGet xs n).map (try_wrap w)
  | _, _ => none

/-- A chain of indexed reads from a wrapper, following the nested
wrappers produced by wrap-on-read. -/
def readPath (h : Heap) (w : Wrapper) : List PathKey → Option Wrapper
  | [] => some w
  | key :: keys =>
    match nestedGetitem h w key with
    | some (.wrapped w') => readPath h w' keys
    | _ => none

/-- `MutationDict.__json__` / `MutationList.__json__`: build a fresh
plain container holding the same (key and) value objects as `self._d`.
The cells of this model hold only raw values (which have no custom
`__json__` projection), so the projection is a fresh shallow copy of
the underlying cell; it is allocated at the end of the heap and its
address is returned. -/
def jsonProj (h : Heap) (w : Wrapper) : Option (Heap × Nat) :=
  match heapGet h w.addr with
  | some c => some (h ++ [c], h.length)
  | none => none

/-- `MutationDict.coerce` / `MutationList.coerce` on a value that is
not already wrapped: a plain container is wrapped freshly (sharing the
container object, with no parent), anything else is rejected by the
`Mutable.coerce` fallback. -/
def coerce (h : Heap) (v : RawVal) : Option Wrapper :=
  match v with
  | .ref a =>
    match heapGet h a with
    | some _ => some (.root a)
    | none => none
  | .prim _ => none

/-- The result of `wrap_as_nested`: a wrapper, or the argument passed
through unchanged for unrecognized types. -/
inductive WrapResult where
  | wrapped (w : Wrapper)
  | unchanged (v : RawVal)
deriving DecidableEq

/-- `wrap_as_nested(key, data, parent)` from `json.py`: for a dict or
list, wrap a shallow copy (`data.copy()`) with `__parent__ = None` and
bind the record instance in `_parents` (the record binding is the
`dirtyEvents` sink of this model); for anything else return the data
unchanged.  The copy is a fresh container object allocated at the end
of the heap holding the same member values as the original. -/
def wrap_as_nested (h : Heap) (data : RawVal) : Heap × WrapResult :=
  match data with
  | .ref a =>
    (match heapGet h a with
     | some c => (h ++ [c], .wrapped (.root h.length))
     | none => (h, .unchanged data))
  | .prim _ => (h, .unchanged data)

/-- Fuel needed to dereference a value: a reference to address `b`
needs fuel `b + 1` in a downward-referencing heap. -/
def refBound : RawVal → Nat
  | .prim _ => 0
  | .ref b => b + 1

def keysNodup : List String → Bool
  | [] => true
  | k :: ks => !(decide (k ∈ ks)) && keysNodup ks

/-- Well-formedness of the container object at address `i`: its dict
keys are unique (a Python dict invariant) and its member references
point to strictly smaller addresses (heaps built from acyclic JSON
data can always be laid out this way). -/
def cellOk (i : Nat) : Cell → Bool
  | .dcell es => keysNodup (es.map Prod.fst) && es.all fun kv => decide (refBound kv.2 ≤ i)
  | .lcell xs => xs.all fun v => decide (refBound v ≤ i)

def heapWFAux : Nat → List Cell → Bool
  | _, [] => true
  | i, c :: rest => cellOk i c && heapWFAux (i + 1) rest

def heapWF (h : Heap) : Bool := heapWFAux 0 h

theorem Wrapper.changed_heap (w : Wrapper) (st : TrackState) :
    (Wrapper.changed w st).heap = st.heap := by
  induction w with
  | root a => rfl
  | child a p ih => exact ih

theorem Wrapper.changed_dirty (w : Wrapper) (st : TrackState) :
    (Wrapper.changed w st).dirtyEvents = st.dirtyEvents + 1 := by
  induction w with
  | root a => rfl
  | child a p ih => exact ih

theorem heapSet_length (h : Heap) : ∀ (a : Nat) (c : Cell),
    (heapSet h a c).length = h.length := by
  induction h with
  | nil => intro a c; rfl
  | cons x rest ih =>
    intro a c
    cases a with
    | zero => rfl
    | succ i => simp only [heapSet, List.length_cons, ih]

theorem heapGet_heapSet_ne (h : Heap) : ∀ (a b : Nat) (c : Cell), b ≠ a →
    heapGet (heapSet h a c) b = heapGet h b := by
  induction h with
  | nil => intro a b c _; rfl
  | cons x rest ih =>
    intro a b c hne
    cases a with
    | zero =>
      cases b with
      | zero => exact absurd rfl hne
      | succ j => rfl
    | succ i =>
      cases b with
      | zero => rfl
      | succ j => exact ih i j c (by omega)

theorem heapGet_lt_length (h : Heap) : ∀ (a : Nat) (c : Cell),
    heapGet h a = some c → a < h.length := by
  induction h with
  | nil => intro a c hc; simp [heapGet] at hc
  | cons x rest ih =>
    intro a c hc
    cases a with
    | zero => simp
    | succ i =>
      have := ih i c hc
      simp only [List.length_cons]
      omega

theorem heapGet_isSome (h : Heap) : ∀ b, b < h.length → ∃ c, heapGet h b = some c := by
  induction h with
  | nil => intro b hb; simp at hb
  | cons x rest ih =>
    intro b hb
    cases b with
    | zero => exact ⟨x, rfl⟩
    | succ j => exact ih j (by simp only [List.length_cons] at hb; omega)

theorem heapGet_append_lt (h h2 : Heap) : ∀ a, a < h.length →
    heapGet (h ++ h2) a = heapGet h a := by
  induction h with
  | nil => intro a ha; simp at ha
  | cons x rest ih =>
    intro a ha
    cases a with
    | zero => rfl
    | succ i => exact ih i (by simp only [List.length_cons] at ha; omega)

theorem heapGet_append_self (h : Heap) (c : Cell) :
    heapGet (h ++ [c]) h.length = some c := by
  induction h with
  | nil => rfl
  | cons x rest ih => exact ih

theorem runMethod_read_no_write (h : Heap) (a : Nat) (c : Cell) (op : Op)
    (r : OpResult) (wr : Option Cell)
    (hm : op.mutates = false) (hr : runMethod h a c op = some (r, wr)) : wr = none := by
  cases op <;> cases c <;> simp_all [Op.mutates, runMethod]

theorem runRawOp_some (h : Heap) (a : Nat) (op : Op) (r : OpResult) (h' : Heap)
    (hr : runRawOp h a op = some (r, h')) :
    ∃ c wr, heapGet h a = some c ∧ runMethod h a c op = some (r, wr) ∧
      h' = (match wr with | none => h | some c' => heapSet h a c') := by
  unfold runRawOp at hr
  cases hg : heapGet h a with
  | none => rw [hg] at hr; simp at hr
  | some c =>
    rw [hg, Option.some_bind'] at hr
    cases hm2 : runMethod h a c op with
    | none => rw [hm2] at hr; simp at hr
    | some rw0 =>
      obtain ⟨r0, wr⟩ := rw0
      rw [hm2, Option.map_some'] at hr
      cases wr with
      | none =>
        simp only [Option.some.injEq, Prod.mk.injEq] at hr
        exact ⟨c, none, rfl, hr.1 ▸ hm2, hr.2.symm⟩
      | some c' =>
        simp only [Option.some.injEq, Prod.mk.injEq] at hr
        exact ⟨c, some c', rfl, hr.1 ▸ hm2, hr.2.symm⟩

theorem runRawOp_of_read (h : Heap) (a : Nat) (op : Op) (r : OpResult) (h' : Heap)
    (hm : op.mutates = false) (hr : runRawOp h a op = some (r, h')) : h' = h := by
  obtain ⟨c, wr, hg, hm2, hh⟩ := runRawOp_some h a op r h' hr
  have hw := runMethod_read_no_write h a c op r wr hm hm2
  subst hw
  exact hh

theorem runRawOp_length (h : Heap) (a : Nat) (op : Op) (r : OpResult) (h' : Heap)
    (hr : runRawOp h a op = some (r, h')) : h'.length = h.length := by
  obtain ⟨c, wr, hg, hm2, hh⟩ := runRawOp_some h a op r h' hr
  cases wr with
  | none => rw [hh]
  | some c' => rw [hh]; exact heapSet_length h a c'

theorem runRawOp_frame (h : Heap) (a : Nat) (op : Op) (r : OpResult) (h' : Heap)
    (hr : runRawOp h a op = some (r, h')) (b : Nat) (hb : b ≠ a) :
    heapGet h' b = heapGet h b := by
  obtain ⟨c, wr, hg, hm2, hh⟩ := runRawOp_some h a op r h' hr
  cases wr with
  | none => rw [hh]
  | some c' => rw [hh]; exact heapGet_heapSet_ne h a b c' hb

theorem callOp_some (st : TrackState) (w : Wrapper) (op : Op)
    (r : OpResult) (st' : TrackState)
    (hc : callOp st w op = some (r, st')) :
    ∃ h', runRawOp st.heap w.addr op = some (r, h') ∧
      st' = (if op.mutates then Wrapper.changed w ⟨h', st.dirtyEvents⟩
             else ⟨h', st.dirtyEvents⟩) := by
  unfold callOp at hc
  cases hg : runRawOp st.heap w.addr op with
  | none => rw [hg] at hc; simp at hc
  | some rh =>
    obtain ⟨r0, h'⟩ := rh
    rw [hg, Option.map_some'] at hc
    simp only [Option.some.injEq, Prod.mk.injEq] at hc
    obtain ⟨hr0, hst⟩ := hc
    subst hr0
    exact ⟨h', rfl, hst.symm⟩

/-- C6: for every tracked root container and every mutating operation
applied to a nested container reached from it by indexed reads, the
changed event bubbles through the `__parent__` chain and the root
record attribute is marked dirty exactly once per mutating call; the
mutation happens in place (no container is reassigned or reallocated:
the heap keeps its size and the root wrapper still wraps the same
object). -/
theorem nested_mutation_marks_dirty_once (st : TrackState) (a0 : Nat)
    (path : List PathKey) (w : Wrapper) (op : Op) (r : OpResult) (st' : TrackState)
    (_hreach : readPath st.heap (.root a0) path = some w)
    (hmut : op.mutates = true)
    (hcall : callOp st w op = some (r, st')) :
    st'.dirtyEvents = st.dirtyEvents + 1 ∧ st'.heap.length = st.heap.length := by
  obtain ⟨h', hrun, hst⟩ := callOp_some st w op r st' hcall
  rw [hmut, if_pos rfl] at hst
  subst hst
  refine ⟨Wrapper.changed_dirty w ⟨h', st.dirtyEvents⟩, ?_⟩
  rw [Wrapper.changed_heap]
  exact runRawOp_length st.heap w.addr op r h' hrun

theorem nested_mutation_marks_dirty_once_witness :
    (⟨[Cell.lcell [.prim (.int 1), .prim (.int 2), .prim (.int 3)],
       Cell.dcell [("a", RawVal.ref 0)]], 1⟩ : TrackState).dirtyEvents =
      (⟨[Cell.lcell [.prim (.int 1), .prim (.int 2)],
         Cell.dcell [("a", RawVal.ref 0)]], 0⟩ : TrackState).dirtyEvents + 1 ∧
    (⟨[Cell.lcell [.prim (.int 1), .prim (.int 2), .prim (.int 3)],
       Cell.dcell [("a", RawVal.ref 0)]], 1⟩ : TrackState).heap.length =
      (⟨[Cell.lcell [.prim (.int 1), .prim (.int 2)],
         Cell.dcell [("a", RawVal.ref 0)]], 0⟩ : TrackState).heap.length :=
  nested_mutation_marks_dirty_once
    ⟨[Cell.lcell [.prim (.int 1), .prim (.int 2)], Cell.dcell [("a", RawVal.ref 0)]], 0⟩
    1 [.k "a"] (.child 0 (.root 1)) (.lappend (.prim (.int 3))) .unit
    ⟨[Cell.lcell [.prim (.int 1), .prim (.int 2), .prim (.int 3)],
      Cell.dcell [("a", RawVal.ref 0)]], 1⟩
    rfl rfl rfl

/-- C7: every read-only wrapped operation (membership, length,
equality, key views, string representation — the methods the table
marks as non-mutating) returns its result derived from the wrapped raw
value and leaves the tracking state — heap and dirty counter — exactly
as it was; no changed event is signalled.  (The indexed read
`nestedGetitem` consumes no state at all, so reading a nested element
such as root["a"][0] cannot change the dirty state either.) -/
theorem reads_leave_state_unchanged (st : TrackState) (w : Wrapper) (op : Op)
    (r : OpResult) (st' : TrackState)
    (hread : op.mutates = false)
    (hcall : callOp st w op = some (r, st')) : st' = st := by
  obtain ⟨h', hrun, hst⟩ := callOp_some st w op r st' hcall
  rw [hread] at hst
  simp only [Bool.false_eq_true, if_false] at hst
  have hh : h' = st.heap := runRawOp_of_read st.heap w.addr op r h' hread hrun
  subst hh
  rw [hst]

theorem reads_leave_state_unchanged_witness :
    Op.mutates (.dget "a") = false ∧
    callOp ⟨[Cell.lcell [.prim (.int 1)], Cell.dcell [("a", RawVal.ref 0)]], 0⟩
        (.root 1) (.dget "a") =
      some (.raw (.ref 0),
        ⟨[Cell.lcell [.prim (.int 1)], Cell.dcell [("a", RawVal.ref 0)]], 0⟩) ∧
    (⟨[Cell.lcell [.prim (.int 1)], Cell.dcell [("a", RawVal.ref 0)]], 0⟩ : TrackState) =
      ⟨[Cell.lcell [.prim (.int 1)], Cell.dcell [("a", RawVal.ref 0)]], 0⟩ :=
  ⟨rfl, rfl,
    reads_leave_state_unchanged
      ⟨[Cell.lcell [.prim (.int 1)], Cell.dcell [("a", RawVal.ref 0)]], 0⟩
      (.root 1) (.dget "a") (.raw (.ref 0))
      ⟨[Cell.lcell [.prim (.int 1)], Cell.dcell [("a", RawVal.ref 0)]], 0⟩
      rfl rfl⟩

/-- C9: on a mapping wrapper, `get(key)` goes through the generic
method-table wrapper and returns the stored raw value unwrapped (no
parent pointer attached, and no state change since `get` is a read),
whereas the indexed read `__getitem__` wraps the same stored container
with the reading wrapper as parent.  Consequently a mutating container
method invoked directly on the raw container obtained via `get` runs
with no changed hook: the dirty counter is untouched. -/
theorem mapping_get_returns_unwrapped (h : Heap) (d : Nat) (w : Wrapper)
    (es : List (String × RawVal)) (k : String) (b : Nat)
    (hw : heapGet h w.addr = some (.dcell es))
    (hk : dictGetOpt es k = some (.ref b)) :
    callOp ⟨h, d⟩ w (.dget k) = some (.raw (.ref b), ⟨h, d⟩)
    ∧ nestedGetitem h w (.k k) = some (.wrapped (.child b w))
    ∧ (∀ op r st', mutateRaw ⟨h, d⟩ b op = some (r, st') →
        st'.dirtyEvents = d) := by
  refine ⟨?_, ?_, ?_⟩
  · unfold callOp runRawOp
    simp [hw, runMethod, dictGet, hk, Op.mutates]
  · unfold nestedGetitem
    rw [hw]
    simp [hk, try_wrap]
  · intro op r st' hm
    unfold mutateRaw at hm
    cases hg : runRawOp h b op with
    | none => rw [hg] at hm; simp at hm
    | some rh =>
      rw [hg, Option.map_some'] at hm
      simp only [Option.some.injEq, Prod.mk.injEq] at hm
      rw [← hm.2]

theorem mapping_get_returns_unwrapped_witness :
    callOp ⟨[Cell.lcell [.prim (.int 1)], Cell.dcell [("a", RawVal.ref 0)]], 0⟩
        (.root 1) (.dget "a") =
      some (.raw (.ref 0),
        ⟨[Cell.lcell [.prim (.int 1)], Cell.dcell [("a", RawVal.ref 0)]], 0⟩) ∧
    TrackState.dirtyEvents
      ⟨[Cell.lcell [.prim (.int 1), .prim (.int 2)],
        Cell.dcell [("a", RawVal.ref 0)]], 0⟩ = 0 :=
  ⟨(mapping_get_returns_unwrapped
      [Cell.lcell [.prim (.int 1)], Cell.dcell [("a", RawVal.ref 0)]] 0
      (.root 1) [("a", RawVal.ref 0)] "a" 0 rfl rfl).1,
   (mapping_get_returns_unwrapped
      [Cell.lcell [.prim (.int 1)], Cell.dcell [("a", RawVal.ref 0)]] 0
      (.root 1) [("a", RawVal.ref 0)] "a" 0 rfl rfl).2.2
      (.lappend (.prim (.int 2))) .unit
      ⟨[Cell.lcell [.prim (.int 1), .prim (.int 2)],
        Cell.dcell [("a", RawVal.ref 0)]], 0⟩ rfl⟩

/-- C10: `wrap_as_nested` applied to a container wraps a shallow copy:
the wrapper's underlying container is a fresh object distinct from the
argument, holding the same member values (nested containers remain
shared), so every mutating operation performed through the returned
wrapper leaves the original argument's container unchanged. -/
theorem wrap_as_nested_shallow_copy (h : Heap) (a : Nat) (c : Cell) (d : Nat)
    (hc : heapGet h a = some c) :
    wrap_as_nested h (.ref a) = (h ++ [c], .wrapped (.root h.length))
    ∧ h.length ≠ a
    ∧ heapGet (h ++ [c]) h.length = some c
    ∧ heapGet (h ++ [c]) a = some c
    ∧ (∀ op r st', op.mutates = true →
        callOp ⟨h ++ [c], d⟩ (.root h.length) op = some (r, st') →
        heapGet st'.heap a = some c) := by
  have ha : a < h.length := heapGet_lt_length h a c hc
  refine ⟨?_, by omega, heapGet_append_self h c, ?_, ?_⟩
  · simp [wrap_as_nested, hc]
  · rw [heapGet_append_lt h [c] a ha]
    exact hc
  · intro op r st' hm hcall
    obtain ⟨h', hrun, hst⟩ := callOp_some ⟨h ++ [c], d⟩ (.root h.length) op r st' hcall
    rw [hm, if_pos rfl] at hst
    subst hst
    rw [Wrapper.changed_heap]
    have hfr := runRawOp_frame (h ++ [c]) (Wrapper.addr (.root h.length)) op r h' hrun a
      (by simp [Wrapper.addr]; omega)
    rw [hfr, heapGet_append_lt h [c] a ha]
    exact hc

theorem wrap_as_nested_shallow_copy_witness :
    heapGet [Cell.lcell [RawVal.prim (.int 1)]] 0 = some (Cell.lcell [RawVal.prim (.int 1)]) ∧
    heapGet (TrackState.heap
      ⟨[Cell.lcell [RawVal.prim (.int 1)],
        Cell.lcell [RawVal.prim (.int 1), RawVal.prim (.int 2)]], 1⟩) 0 =
      some (Cell.lcell [RawVal.prim (.int 1)]) :=
  ⟨rfl,
   (wrap_as_nested_shallow_copy [Cell.lcell [RawVal.prim (.int 1)]] 0
      (Cell.lcell [RawVal.prim (.int 1)]) 0 rfl).2.2.2.2
      (.lappend (.prim (.int 2))) .unit
      ⟨[Cell.lcell [RawVal.prim (.int 1)],
        Cell.lcell [RawVal.prim (.int 1), RawVal.prim (.int 2)]], 1⟩
      rfl rfl⟩

theorem keysNodup_lookup (es : List (String × RawVal)) :
    ∀ (k : String) (v : RawVal),
    keysNodup (es.map Prod.fst) = true → (k, v) ∈ es → dictGetOpt es k = some v := by
  induction es with
  | nil => intro k v _ hm; cases hm
  | cons kv rest ih =>
    intro k v hnd hm
    simp only [List.map_cons, keysNodup, Bool.and_eq_true, Bool.not_eq_true',
      decide_eq_false_iff_not] at hnd
    obtain ⟨hnotin, hnd'⟩ := hnd
    cases hm with
    | head => simp [dictGetOpt]
    | tail _ hm' =>
      have hk : kv.1 ≠ k := by
        intro he
        apply hnotin
        rw [he]
        exact List.mem_map_of_mem Prod.fst hm'
      simp only [dictGetOpt, hk, if_false]
      exact ih k v hnd' hm'

theorem all2_refl (f : RawVal → RawVal → Bool) (xs : List RawVal)
    (h : ∀ x ∈ xs, f x x = true) : all2 f xs xs = true := by
  induction xs with
  | nil => rfl
  | cons x rest ih =>
    simp only [all2, Bool.and_eq_true]
    exact ⟨h x (List.mem_cons_self x rest),
      ih fun y hy => h y (List.mem_cons_of_mem x hy)⟩

theorem heapWFAux_get (h : Heap) : ∀ (n i : Nat) (c : Cell),
    heapWFAux n h = true → heapGet h i = some c → cellOk (n + i) c = true := by
  induction h with
  | nil => intro n i c _ hg; simp [heapGet] at hg
  | cons x rest ih =>
    intro n i c hwf hg
    simp only [heapWFAux, Bool.and_eq_true] at hwf
    obtain ⟨hok, hwf'⟩ := hwf
    cases i with
    | zero =>
      simp only [heapGet, Option.some.injEq] at hg
      subst hg
      simpa using hok
    | succ j =>
      have := ih (n + 1) j c hwf' hg
      rw [show n + (j + 1) = n + 1 + j by omega]
      exact this

theorem cellOk_mono (i j : Nat) (c : Cell) (hij : i ≤ j)
    (h : cellOk i c = true) : cellOk j c = true := by
  cases c with
  | dcell es =>
    simp only [cellOk, Bool.and_eq_true, List.all_eq_true, decide_eq_true_eq] at h ⊢
    exact ⟨h.1, fun kv hkv => Nat.le_trans (h.2 kv hkv) hij⟩
  | lcell xs =>
    simp only [cellOk, List.all_eq_true, decide_eq_true_eq] at h ⊢
    exact fun v hv => Nat.le_trans (h v hv) hij

theorem heapWFAux_append (c : Cell) (h : Heap) : ∀ (n : Nat),
    heapWFAux n h = true → cellOk (n + h.length) c = true →
    heapWFAux n (h ++ [c]) = true := by
  induction h with
  | nil =>
    intro n _ hok
    simp only [List.nil_append, heapWFAux, Bool.and_eq_true]
    exact ⟨by simpa using hok, trivial⟩
  | cons x rest ih =>
    intro n hwf hok
    simp only [heapWFAux, Bool.and_eq_true] at hwf
    simp only [List.cons_append, heapWFAux, Bool.and_eq_true]
    refine ⟨hwf.1, ih (n + 1) hwf.2 ?_⟩
    rw [show n + 1 + rest.length = n + (rest.length + 1) by omega]
    simpa using hok

theorem pyEqVal_refl (h : Heap) (hwf : heapWF h = true) :
    ∀ (fuel : Nat) (v : RawVal), refBound v ≤ fuel → refBound v ≤ h.length →
      pyEqVal fuel h v v = true := by
  intro fuel
  induction fuel with
  | zero =>
    intro v hb _
    cases v with
    | prim p => simp [pyEqVal]
    | ref b => simp [refBound] at hb
  | succ f ih =>
    intro v hb hlen
    cases v with
    | prim p => simp [pyEqVal]
    | ref b =>
      simp only [refBound] at hb hlen
      have hblen : b < h.length := by omega
      obtain ⟨c, hc⟩ := heapGet_isSome h b hblen
      have hok : cellOk b c = true := by
        have := heapWFAux_get h 0 b c hwf hc
        simpa using this
      cases c with
      | dcell es =>
        simp only [cellOk, Bool.and_eq_true, List.all_eq_true, decide_eq_true_eq] at hok
        simp only [pyEqVal, hc, Bool.and_eq_true, decide_eq_true_eq, List.all_eq_true]
        refine ⟨by trivial, ?_⟩
        intro kv hkv
        have hlook : dictGetOpt es kv.1 = some kv.2 :=
          keysNodup_lookup es kv.1 kv.2 hok.1 (by simpa using hkv)
        rw [hlook]
        have hkb : refBound kv.2 ≤ b := hok.2 kv hkv
        exact ih kv.2 (by omega) (by omega)
      | lcell xs =>
        simp only [cellOk, List.all_eq_true, decide_eq_true_eq] at hok
        simp only [pyEqVal, hc, Bool.and_eq_true, decide_eq_true_eq]
        refine ⟨by trivial, ?_⟩
        apply all2_refl
        intro x hx
        have hxb : refBound x ≤ b := hok x hx
        exact ih x (by omega) (by omega)

/-- C8: projecting a tracked container to plain data via `__json__`
and wrapping that plain data again via `coerce` yields a value whose
underlying container compares equal to the original under the wrapped
type's equality semantics (`NestedMixin.__eq__` delegating to Python
structural container equality).  Stated for heaps whose references
point downward (acyclic data, as produced from JSON columns) with
unique dict keys. -/
theorem json_roundtrip_eq (h : Heap) (w : Wrapper) (c : Cell)
    (hwf : heapWF h = true) (hc : heapGet h w.addr = some c) :
    ∃ h' a' w', jsonProj h w = some (h', a') ∧ coerce h' (.ref a') = some w'
      ∧ pyEqVal h'.length h' (.ref w'.addr) (.ref w.addr) = true := by
  have haddr : w.addr < h.length := heapGet_lt_length h w.addr c hc
  have hok : cellOk w.addr c = true := by
    have := heapWFAux_get h 0 w.addr c hwf hc
    simpa using this
  have hget1 : heapGet (h ++ [c]) h.length = some c := heapGet_append_self h c
  have hget2 : heapGet (h ++ [c]) w.addr = some c := by
    rw [heapGet_append_lt h [c] w.addr haddr]
    exact hc
  have hwf' : heapWF (h ++ [c]) = true := by
    unfold heapWF
    apply heapWFAux_append c h 0 hwf
    apply cellOk_mono w.addr (0 + h.length) c (by omega) hok
  refine ⟨h ++ [c], h.length, .root h.length, ?_, ?_, ?_⟩
  · unfold jsonProj
    rw [hc]
  · simp [coerce, hget1]
  · have hlen : (h ++ [c]).length = h.length + 1 := by simp
    rw [hlen]
    have haddr' : Wrapper.addr (.root h.length) = h.length := rfl
    rw [haddr']
    cases c with
    | dcell es =>
      simp only [cellOk, Bool.and_eq_true, List.all_eq_true, decide_eq_true_eq] at hok
      simp only [pyEqVal, hget1, hget2, Bool.and_eq_true, decide_eq_true_eq,
        List.all_eq_true]
      refine ⟨by trivial, ?_⟩
      intro kv hkv
      have hlook : dictGetOpt es kv.1 = some kv.2 :=
        keysNodup_lookup es kv.1 kv.2 hok.1 (by simpa using hkv)
      rw [hlook]
      have hkb : refBound kv.2 ≤ w.addr := hok.2 kv hkv
      apply pyEqVal_refl (h ++ [Cell.dcell es]) hwf'
      · omega
      · simp only [List.length_append, List.length_cons, List.length_nil]
        omega
    | lcell xs =>
      simp only [cellOk, List.all_eq_true, decide_eq_true_eq] at hok
      simp only [pyEqVal, hget1, hget2, Bool.and_eq_true, decide_eq_true_eq]
      refine ⟨by trivial, ?_⟩
      apply all2_refl
      intro x hx
      have hxb : refBound x ≤ w.addr := hok x hx
      apply pyEqVal_refl (h ++ [Cell.lcell xs]) hwf'
      · omega
      · simp only [List.length_append, List.length_cons, List.length_nil]
        omega

theorem json_roundtrip_eq_witness :
    heapWF [Cell.lcell [RawVal.prim (.int 2)],
            Cell.dcell [("x", RawVal.prim (.int 1)), ("y", RawVal.ref 0)]] = true ∧
    (∃ h' a' w',
      jsonProj [Cell.lcell [RawVal.prim (.int 2)],
                Cell.dcell [("x", RawVal.prim (.int 1)), ("y", RawVal.ref 0)]]
          (.root 1) = some (h', a')
      ∧ coerce h' (.ref a') = some w'
      ∧ pyEqVal h'.length h' (.ref w'.addr) (.ref (Wrapper.root 1).addr) = true) :=
  ⟨by decide,
   json_roundtrip_eq
     [Cell.lcell [RawVal.prim (.int 2)],
      Cell.dcell [("x", RawVal.prim (.int 1)), ("y", RawVal.ref 0)]]
     (.root 1)
     (Cell.dcell [("x", RawVal.prim (.int 1)), ("y", RawVal.ref 0)])
     (by decide) rfl⟩
